import Mathlib

/-!
Verification development for the Defold resource-archive subsystem and its
small collaborators (atlas packer boundary, null texture transcoder).

The archive implementation (`resource_archive.h` / `.cpp`) is exercised by
`src/engine/resource/src/test/test_resource_archive.cpp` but its body is not
part of the available sources, so the archive operations below are modelled
from the specification (sections 3, 4, 6 and 7 of `spec.md`), keeping the C
API names used by the test file (`WrapArchiveBuffer2`, `GetEntryCount2`,
`FindEntry2`, `Read2`, `LoadArchive2`).  The null transcoder is embedded
directly from `graphics_transcoder_null.cpp`, and the atlas-packer boundary
from `atlasc.h` / `atlasc_jni.cpp`.
-/

set_option maxRecDepth 100000
set_option maxHeartbeats 1000000

/-- Decidable equality for `Except`, used to evaluate the modelled
operations on concrete archives. -/
instance exceptDecEq {e a : Type} [DecidableEq e] [DecidableEq a] :
    DecidableEq (Except e a) := fun x y =>
  match x, y with
  | .error u, .error v =>
    if h : u = v then .isTrue (by rw [h]) else .isFalse (fun hc => h (Except.error.inj hc))
  | .error _, .ok _ => .isFalse (fun hc => Except.noConfusion hc)
  | .ok _, .error _ => .isFalse (fun hc => Except.noConfusion hc)
  | .ok u, .ok v =>
    if h : u = v then .isTrue (by rw [h]) else .isFalse (fun hc => h (Except.ok.inj hc))

namespace dmResourceArchive

/-- Modelled from the spec: the result taxonomy of §7 together with the two
enumerators the test file names (`RESULT_OK`, `RESULT_NOT_FOUND`,
`RESULT_IO_ERROR`). -/
inductive Result where
  | RESULT_OK
  | RESULT_NOT_FOUND
  | RESULT_IO_ERROR
  | RESULT_INVALID_FORMAT
  | RESULT_CORRUPT_ARCHIVE
  | RESULT_DECOMPRESSION_ERROR
deriving DecidableEq, Repr

/-- Modelled from the spec (§3 HashKey): the hash length is a format
constant, not caller-chosen.  The spec leaves the exact value open; we fix
the constant to 18, the byte length of the hash strings used by the test
fixture (`"awesome hash here1"` etc.). -/
def hashLen : Nat := 18

/-- Modelled from the spec (§3 EntryMetadata): per-entry record with hash,
data offset (u64), compressed and decompressed sizes (u32) and a flag
bitfield whose lowest bit is IS_COMPRESSED.  The test file calls this record
`EntryData`. -/
structure EntryData where
  hash : List Nat
  data_offset : Nat
  compressed_size : Nat
  decompressed_size : Nat
  flags : Nat
deriving DecidableEq, Repr

instance : Inhabited EntryData := ⟨⟨[], 0, 0, 0, 0⟩⟩

/-- Modelled from the spec (§3): bit 0 of the flag bitfield is
IS_COMPRESSED. -/
def isCompressed (e : EntryData) : Bool := e.flags % 2 == 1

/-- Modelled from the spec (§4.1): byte-wise lexicographic three-way
comparison of hash keys. -/
def hashCompare : List Nat → List Nat → Ordering
  | [], [] => .eq
  | [], _ :: _ => .lt
  | _ :: _, [] => .gt
  | a :: as, b :: bs =>
    if a < b then .lt else if b < a then .gt else hashCompare as bs

/-- Read a little-endian u32 from the first four bytes of a byte list
(missing bytes read as 0). -/
def readU32 (bs : List Nat) : Nat :=
  bs.getD 0 0 + 256 * bs.getD 1 0 + 65536 * bs.getD 2 0 + 16777216 * bs.getD 3 0

/-- Read a little-endian u64 from the first eight bytes of a byte list. -/
def readU64 (bs : List Nat) : Nat :=
  readU32 bs + 4294967296 * readU32 (bs.drop 4)

/-- Serialize a u32 as four little-endian bytes. -/
def u32le (v : Nat) : List Nat :=
  [v % 256, v / 256 % 256, v / 65536 % 256, v / 16777216 % 256]

/-- Serialize a u64 as eight little-endian bytes. -/
def u64le (v : Nat) : List Nat :=
  u32le (v % 4294967296) ++ u32le (v / 4294967296)

/-- Modelled from the spec (§6): each index record is the hash bytes
followed by data offset (u64), compressed size (u32), decompressed size
(u32) and flags (u32). -/
def entrySize : Nat := hashLen + 20

/-- Modelled from the spec (§6): index header = format marker (4 bytes)
plus entry count (u32). -/
def headerSize : Nat := 8

/-- Modelled from the spec (§6): the format marker.  The exact magic bytes
are an open constant in the spec; we use the ASCII bytes of "ARCI". -/
def MAGIC : List Nat := [65, 82, 67, 73]

/-- Parse one EntryMetadata record from a byte list (laid out per
`entrySize`). -/
def parseEntry (bs : List Nat) : EntryData :=
  { hash := bs.take hashLen
    data_offset := readU64 (bs.drop hashLen)
    compressed_size := readU32 (bs.drop (hashLen + 8))
    decompressed_size := readU32 (bs.drop (hashLen + 12))
    flags := readU32 (bs.drop (hashLen + 16)) }

/-- Parse `n` consecutive EntryMetadata records. -/
def parseEntries (bs : List Nat) : Nat → List EntryData
  | 0 => []
  | n + 1 => parseEntry (bs.take entrySize) :: parseEntries (bs.drop entrySize) n

/-- Serialize one EntryMetadata record. -/
def serializeEntry (e : EntryData) : List Nat :=
  e.hash ++ u64le e.data_offset ++ u32le e.compressed_size ++
    u32le e.decompressed_size ++ u32le e.flags

/-- Serialize a list of EntryMetadata records. -/
def serializeEntries : List EntryData → List Nat
  | [] => []
  | e :: rest => serializeEntry e ++ serializeEntries rest

/-- Modelled from the spec (§4.2): executable check that the entry table is
strictly ascending by hash (duplicates are a format violation, §9). -/
def sortedStrict : List EntryData → Bool
  | [] => true
  | [_] => true
  | a :: b :: rest =>
    (hashCompare a.hash b.hash == Ordering.lt) && sortedStrict (b :: rest)

/-- Modelled from the spec (§3 ArchiveHandle): the opened archive bundles
the parsed entry table with the data byte source.  The test file calls the
handle `HArchiveIndex`. -/
structure ArchiveIndex where
  entries : List EntryData
  data : List Nat
deriving DecidableEq, Repr

/-- The entry count an index buffer declares in its header. -/
def declaredCount (index : List Nat) : Nat := readU32 (index.drop 4)

/-- The index buffer is too short for its declared header/count (§4.3). -/
def indexTooShort (index : List Nat) : Prop :=
  index.length < headerSize ∨
    index.length < headerSize + declaredCount index * entrySize

instance (index : List Nat) : Decidable (indexTooShort index) := by
  unfold indexTooShort
  infer_instance

/-- The entry table declared by an index buffer. -/
def declaredEntries (index : List Nat) : List EntryData :=
  parseEntries (index.drop headerSize) (declaredCount index)

/-- Modelled from the spec (§4.3 Wrap): parse the index buffer, failing with
`InvalidFormat` when the buffer is too short for its declared header/count,
when the format marker is wrong, when the table is not strictly sorted, or
when any entry's `data_offset + compressed_size` would read past the end of
the data buffer. -/
def WrapArchiveBuffer2 (index : List Nat) (data : List Nat) :
    Except Result ArchiveIndex :=
  if indexTooShort index then .error .RESULT_INVALID_FORMAT
  else if index.take 4 ≠ MAGIC then .error .RESULT_INVALID_FORMAT
  else if ¬ sortedStrict (declaredEntries index) then .error .RESULT_INVALID_FORMAT
  else if (declaredEntries index).any
      (fun e => data.length < e.data_offset + e.compressed_size) then
    .error .RESULT_INVALID_FORMAT
  else .ok ⟨declaredEntries index, data⟩

/-- Modelled from the spec (§4.4): number of entries, O(1). -/
def GetEntryCount2 (a : ArchiveIndex) : Nat := a.entries.length

/-- Fuel-indexed worker for the run-length compressor (structural recursion
on the fuel, so that concrete runs reduce in the kernel). -/
def compressRLEFuel : Nat → List Nat → List Nat
  | 0, _ => []
  | _ + 1, [] => []
  | fuel + 1, b :: rest =>
    (min ((rest.takeWhile (· == b)).length) 254 + 1) :: b ::
      compressRLEFuel fuel (rest.drop (min ((rest.takeWhile (· == b)).length) 254))

/-- Modelled from the spec (§4.4 / §9): the codec is a fixed per-archive
configuration constant whose exact algorithm the spec leaves open; we model
it as a byte-oriented run-length codec.  Compression emits
(run length ≤ 255, byte) pairs. -/
def compressRLE (l : List Nat) : List Nat := compressRLEFuel (l.length + 1) l

/-- Modelled from the spec (§4.4): decompression takes the declared
decompressed size as a hard output bound (decompression-bomb guard) and
fails on malformed input (dangling or zero run counts) or when the output
would exceed the bound. -/
def decompressRLE : Nat → List Nat → Option (List Nat)
  | _, [] => some []
  | _, [_] => none
  | cap, c :: b :: rest =>
    if c = 0 then none
    else if cap < c then none
    else (decompressRLE (cap - c) rest).map (fun tail => List.replicate c b ++ tail)

/-- Modelled from the spec (§4.4 Read): slice `compressed_size` bytes at
`data_offset` (failing with `CorruptArchive` when out of bounds), then
either copy verbatim (sizes must agree, else `CorruptArchive`) or
decompress with the declared size as the hard bound (failing with
`DecompressionError` on malformed input or a length mismatch).  The
returned byte list models the bytes written to the caller's destination
buffer. -/
def Read2 (a : ArchiveIndex) (e : EntryData) : Except Result (List Nat) :=
  if a.data.length < e.data_offset + e.compressed_size then
    .error .RESULT_CORRUPT_ARCHIVE
  else if isCompressed e then
    match decompressRLE e.decompressed_size
        ((a.data.drop e.data_offset).take e.compressed_size) with
    | none => .error .RESULT_DECOMPRESSION_ERROR
    | some out =>
      if out.length ≠ e.decompressed_size then .error .RESULT_DECOMPRESSION_ERROR
      else .ok out
  else if e.compressed_size ≠ e.decompressed_size then .error .RESULT_CORRUPT_ARCHIVE
  else .ok ((a.data.drop e.data_offset).take e.compressed_size)

/-- Modelled from the spec (§4.3 LoadFromPath): the file system is a map
from paths to file contents; a missing file is `none`. -/
def FileSystem : Type := String → Option (List Nat)

/-- Modelled from the spec (§4.3): the companion data file's path is derived
from the index path by a fixed suffix convention (`.arci` → `.arcd`). -/
def dataPathOf (p : String) : String := p.dropRight 1 ++ "d"

/-- Modelled from the spec (§4.3 LoadFromPath): read both files (failing
with `IoError` when either is missing), then proceed exactly as Wrap. -/
def LoadArchive2 (fs : FileSystem) (path : String) : Except Result ArchiveIndex :=
  match fs path with
  | none => .error .RESULT_IO_ERROR
  | some idx =>
    match fs (dataPathOf path) with
    | none => .error .RESULT_IO_ERROR
    | some dat => WrapArchiveBuffer2 idx dat

/-- Modelled from the spec (§4.2): fuel-indexed binary search over the
half-open interval [lo, hi) of the sorted table. -/
def findLoop (es : List EntryData) (key : List Nat) : Nat → Nat → Nat → Option EntryData
  | 0, _, _ => none
  | fuel + 1, lo, hi =>
    if lo < hi then
      match hashCompare key (es.getD ((lo + hi) / 2) default).hash with
      | .lt => findLoop es key fuel lo ((lo + hi) / 2)
      | .eq => some (es.getD ((lo + hi) / 2) default)
      | .gt => findLoop es key fuel ((lo + hi) / 2 + 1) hi
    else none

/-- Modelled from the spec (§4.2 lookup): binary search for the first
`hashLen` bytes of the queried key.  `some` models `RESULT_OK` with the
entry copied out; `none` models `RESULT_NOT_FOUND`. -/
def FindEntry2 (a : ArchiveIndex) (h : List Nat) : Option EntryData :=
  findLoop a.entries (h.take hashLen) (a.entries.length + 1) 0 a.entries.length

/-- Modelled from the spec (§6 collaborator boundary): an input to the
archive producer — a hash naming the payload, the payload bytes, and
whether the producer should try to compress the payload. -/
structure SourceEntry where
  hash : List Nat
  payload : List Nat
  compress : Bool
deriving DecidableEq, Repr

/-- The bytes an archive producer stores for one source entry: the
compressed form when compression is requested and does not expand the
payload (compression is not guaranteed to shrink, §3), else the raw
payload. -/
def storedBlob (s : SourceEntry) : List Nat :=
  if s.compress = true ∧ (compressRLE s.payload).length ≤ s.payload.length then
    compressRLE s.payload
  else s.payload

/-- The flag bitfield stored for one source entry (IS_COMPRESSED iff the
compressed form was stored). -/
def storedFlag (s : SourceEntry) : Nat :=
  if s.compress = true ∧ (compressRLE s.payload).length ≤ s.payload.length then 1
  else 0

/-- Entry table of a produced archive: entries in source order, data
offsets accumulated from `off`. -/
def buildEntriesAux (off : Nat) : List SourceEntry → List EntryData
  | [] => []
  | s :: rest =>
    ⟨s.hash, off, (storedBlob s).length, s.payload.length, storedFlag s⟩ ::
      buildEntriesAux (off + (storedBlob s).length) rest

/-- Data file of a produced archive: concatenation of the stored blobs. -/
def buildData : List SourceEntry → List Nat
  | [] => []
  | s :: rest => storedBlob s ++ buildData rest

/-- Index file of a produced archive: marker, entry count, then the
serialized entry table. -/
def buildIndex (src : List SourceEntry) : List Nat :=
  MAGIC ++ u32le src.length ++ serializeEntries (buildEntriesAux 0 src)

/-- Executable strict-ascending check on the hashes of a source list. -/
def srcSorted : List SourceEntry → Bool
  | [] => true
  | [_] => true
  | a :: b :: rest =>
    (hashCompare a.hash b.hash == Ordering.lt) && srcSorted (b :: rest)

/-- The preconditions under which the modelled producer emits a well-formed
archive: hashes of the format's fixed length, strictly ascending hashes,
field values within their wire-format ranges. -/
def BuildPre (src : List SourceEntry) : Prop :=
  srcSorted src = true ∧
  src.length < 4294967296 ∧
  (buildData src).length < 4294967296 ∧
  ∀ s ∈ src, s.hash.length = hashLen ∧ s.payload.length < 4294967296 ∧
    (storedBlob s).length < 4294967296

/-- Modelled from the spec (§3, §4.2): a well-formed entry table — strictly
sorted by hash, each hash of the format's fixed length. -/
def WellFormedTable (es : List EntryData) : Prop :=
  sortedStrict es = true ∧ ∀ e ∈ es, e.hash.length = hashLen

/-- Modelled from the spec (§3): a well-formed opened archive — well-formed
table, every entry within the data source's bounds, `compressed_size ≤
decompressed_size`, and every entry readable. -/
def WellFormedArchive (a : ArchiveIndex) : Prop :=
  WellFormedTable a.entries ∧
  ∀ e ∈ a.entries, e.data_offset + e.compressed_size ≤ a.data.length ∧
    e.compressed_size ≤ e.decompressed_size ∧
    ∃ p, Read2 a e = .ok p

end dmResourceArchive

namespace dmAtlasc

/-- From `atlasc.h`: the packing algorithm enumeration. -/
inductive PackingAlgorithm where
  | PA_TILEPACK_AUTO
  | PA_TILEPACK_TILE
  | PA_TILEPACK_CONVEXHULL
  | PA_BINPACK_SKYLINE_BL
deriving DecidableEq, Repr

/-- From `atlasc.h`: the result enumeration of the atlas packer. -/
inductive Result where
  | RESULT_OK
  | RESULT_WARNING
  | RESULT_INVAL
deriving DecidableEq, Repr

/-- From `atlasc.h`: packer options (`Options`). -/
structure Options where
  m_Algorithm : PackingAlgorithm
  m_PageSize : Int
  m_PackerNoRotate : Bool
  m_TilePackerTileSize : Int
  m_TilePackerPadding : Int
  m_TIlePackerAlphaThreshold : Int
deriving DecidableEq, Repr

/-- From `atlasc.h`: an input image (`SourceImage`). -/
structure SourceImage where
  m_Path : String
  m_Data : List Nat
  m_Width : Int
  m_Height : Int
  m_NumChannels : Int
deriving DecidableEq, Repr

/-- From `atlasc.h`: a placed image (`PackedImage`), reduced to its
placement fields. -/
structure PackedImage where
  m_Path : String
  m_PosX : Int
  m_PosY : Int
  m_Width : Int
  m_Height : Int
  m_Rotation : Int
deriving DecidableEq, Repr

/-- From `atlasc.h`: an output page (`AtlasPage`). -/
structure AtlasPage where
  m_Width : Int
  m_Height : Int
  m_Index : Int
  m_Images : List PackedImage
deriving DecidableEq, Repr

/-- From `atlasc.h`: the output atlas (`Atlas`). -/
structure Atlas where
  m_Pages : List AtlasPage
deriving DecidableEq, Repr

/-- A global or thread-local error slot, as used by the error-handling
style the spec's design note contrasts with (`errno`-like).  The packer
model threads one explicitly so that we can state that it never writes
it. -/
structure GlobalErrorState where
  m_LastResult : Option Result
  m_LastMessage : Option String
deriving DecidableEq, Repr

/-- Modelled from the spec (§9 design note; the implementation of
`CreateAtlas` is not under the available sources, only its declaration in
`atlasc.h` and its JNI caller): the packer returns an optional atlas and
delivers every diagnostic through the caller-supplied error callback,
modelled as the returned list of (Result, message) invocations
(`FOnError`).  An empty input is rejected with `RESULT_INVAL`; otherwise
each image is placed on a single page. -/
def CreateAtlas (options : Options) (source_images : List SourceImage) :
    Option Atlas × List (Result × String) :=
  if source_images.isEmpty then
    (none, [(Result.RESULT_INVAL, "No source images")])
  else
    let packed := source_images.map (fun s =>
      { m_Path := s.m_Path, m_PosX := 0, m_PosY := 0,
        m_Width := s.m_Width, m_Height := s.m_Height,
        m_Rotation := 0 : PackedImage })
    (some ⟨[⟨0, 0, 0, packed⟩]⟩, [])

/-- The packer with an explicit global error slot threaded through, to
state the absence of global error-state writes: the slot is passed along
unchanged. -/
def CreateAtlasWithGlobalState (g : GlobalErrorState) (options : Options)
    (source_images : List SourceImage) :
    (Option Atlas × List (Result × String)) × GlobalErrorState :=
  (CreateAtlas options source_images, g)

end dmAtlasc

namespace dmGraphics

/-- From `graphics_transcoder_null.cpp`: the texture compression type
(`TextureImage::CompressionType`); the enumeration's members are opaque
here since the null transcoder ignores its argument. -/
structure CompressionType where
  val : Nat
deriving DecidableEq, Repr

/-- From `graphics_transcoder_null.cpp`: the texture format argument,
likewise ignored. -/
structure TextureFormat where
  val : Nat
deriving DecidableEq, Repr

/-- From `graphics_transcoder_null.cpp`: the input image argument
(`TextureImage::Image*`), opaque to the null transcoder. -/
structure Image where
  val : Nat
deriving DecidableEq, Repr

/-- The output parameters of `Transcode` (`images`, `sizes`,
`num_transcoded_mips`), modelled as a record threaded through the call. -/
structure TranscodeOut where
  images : List (List Nat)
  sizes : List Nat
  num_transcoded_mips : Nat
deriving DecidableEq, Repr

/-- From `graphics_transcoder_null.cpp`: `IsFormatTranscoded` ignores its
argument and returns false. -/
def IsFormatTranscoded (compression_type : CompressionType) : Bool := false

/-- From `graphics_transcoder_null.cpp`: `Transcode` ignores all of its
arguments, returns false, and writes none of its output parameters — the
returned record is the input record unchanged. -/
def Transcode (path : String) (image : Image) (format : TextureFormat)
    (out : TranscodeOut) : Bool × TranscodeOut :=
  (false, out)

end dmGraphics

namespace dmResourceArchive

/-- Test fixture: hash "awesome hash here1" (18 bytes) from the test file. -/
def hashA1 : List Nat := [97, 119, 101, 115, 111, 109, 101, 32, 104, 97, 115, 104, 32, 104, 101, 114, 101, 49]

/-- Test fixture: hash "awesome hash here2". -/
def hashA2 : List Nat := [97, 119, 101, 115, 111, 109, 101, 32, 104, 97, 115, 104, 32, 104, 101, 114, 101, 50]

/-- Test fixture: hash "awesome hash here3". -/
def hashA3 : List Nat := [97, 119, 101, 115, 111, 109, 101, 32, 104, 97, 115, 104, 32, 104, 101, 114, 101, 51]

/-- Test fixture: hash "awesome hash here4". -/
def hashA4 : List Nat := [97, 119, 101, 115, 111, 109, 101, 32, 104, 97, 115, 104, 32, 104, 101, 114, 101, 52]

/-- Test fixture: hash "awesome hash here5". -/
def hashA5 : List Nat := [97, 119, 101, 115, 111, 109, 101, 32, 104, 97, 115, 104, 32, 104, 101, 114, 101, 53]

/-- Test fixture: hash "awesome hash NOT here" (21 bytes; lookups read the
first `hashLen` of them), lexicographically before every archived hash. -/
def hashMiss : List Nat := [97, 119, 101, 115, 111, 109, 101, 32, 104, 97, 115, 104, 32, 78, 79, 84, 32, 104, 101, 114, 101]

/-- Test fixture: a hash lexicographically after every archived hash. -/
def hashHigh : List Nat := [97, 119, 101, 115, 111, 109, 101, 32, 104, 97, 115, 104, 32, 122, 122, 122, 122, 122]

/-- Test fixture: payload "file1_datafile1_datafile1_data" (30 bytes). -/
def payload1 : List Nat := [102, 105, 108, 101, 49, 95, 100, 97, 116, 97, 102, 105, 108, 101, 49, 95, 100, 97, 116, 97, 102, 105, 108, 101, 49, 95, 100, 97, 116, 97]

/-- Test fixture: payload "file4_datafile4_datafile4_data". -/
def payload2 : List Nat := [102, 105, 108, 101, 52, 95, 100, 97, 116, 97, 102, 105, 108, 101, 52, 95, 100, 97, 116, 97, 102, 105, 108, 101, 52, 95, 100, 97, 116, 97]

/-- Test fixture: payload "file3_data". -/
def payload3 : List Nat := [102, 105, 108, 101, 51, 95, 100, 97, 116, 97]

/-- Test fixture: payload "file2_datafile2_datafile2_data". -/
def payload4 : List Nat := [102, 105, 108, 101, 50, 95, 100, 97, 116, 97, 102, 105, 108, 101, 50, 95, 100, 97, 116, 97, 102, 105, 108, 101, 50, 95, 100, 97, 116, 97]

/-- Test fixture: payload "stuff to test encryption". -/
def payload5 : List Nat := [115, 116, 117, 102, 102, 32, 116, 111, 32, 116, 101, 115, 116, 32, 101, 110, 99, 114, 121, 112, 116, 105, 111, 110]

/-- The five-entry test archive contents (hash i paired with the payload
the test file associates with it), in hash order. -/
def testSrc : List SourceEntry :=
  [⟨hashA1, payload1, false⟩, ⟨hashA2, payload2, false⟩, ⟨hashA3, payload3, false⟩,
   ⟨hashA4, payload4, true⟩, ⟨hashA5, payload5, true⟩]

/-- The five-entry test archive, wrapped. -/
def testArchive : ArchiveIndex := ⟨buildEntriesAux 0 testSrc, buildData testSrc⟩

/-- A modelled disk holding the five-entry test archive's two files. -/
def testFs : FileSystem := fun p =>
  if p = "test.arci" then some (buildIndex testSrc)
  else if p = "test.arcd" then some (buildData testSrc) else none

/-- Fixture for the compression round trip: a hash of 18 equal bytes. -/
def cHashA : List Nat := List.replicate 18 1

/-- Fixture: a hash just above `cHashA`. -/
def cHashB : List Nat := List.replicate 17 1 ++ [2]

/-- Fixture: a highly compressible payload (30 equal bytes). -/
def cPayA : List Nat := List.replicate 30 97

/-- A two-entry archive whose first entry is stored compressed and whose
second is stored raw. -/
def cSrc : List SourceEntry := [⟨cHashA, cPayA, true⟩, ⟨cHashB, [1, 2, 3], false⟩]

/-- An entry whose fields fit the wire format: fixed-length hash, u64
offset, u32 sizes and flags. -/
def EntryWF (e : EntryData) : Prop :=
  e.hash.length = hashLen ∧ e.data_offset < 18446744073709551616 ∧
    e.compressed_size < 4294967296 ∧ e.decompressed_size < 4294967296 ∧
    e.flags < 4294967296

end dmResourceArchive

namespace dmResourceArchive

theorem hashCompare_eq_iff (a b : List Nat) : hashCompare a b = Ordering.eq ↔ a = b := by
  induction a generalizing b with
  | nil => cases b <;> simp [hashCompare]
  | cons x xs ih =>
    cases b with
    | nil => simp [hashCompare]
    | cons y ys =>
      simp only [hashCompare]
      rcases Nat.lt_trichotomy x y with h | h | h
      · rw [if_pos h]
        constructor
        · intro hc; cases hc
        · intro hc
          injection hc with h1 _
          omega
      · subst h
        rw [if_neg (Nat.lt_irrefl x), if_neg (Nat.lt_irrefl x)]
        rw [ih ys]
        constructor
        · intro hc; rw [hc]
        · intro hc; injection hc
      · rw [if_neg (by omega : ¬ x < y), if_pos h]
        constructor
        · intro hc; cases hc
        · intro hc
          injection hc with h1 _
          omega

theorem hashCompare_self (a : List Nat) : hashCompare a a = Ordering.eq :=
  (hashCompare_eq_iff a a).mpr rfl

theorem hashCompare_lt_trans (a b c : List Nat) (h1 : hashCompare a b = Ordering.lt)
    (h2 : hashCompare b c = Ordering.lt) : hashCompare a c = Ordering.lt := by
  induction a generalizing b c with
  | nil =>
    cases c with
    | nil =>
      cases b with
      | nil => simp [hashCompare] at h1
      | cons y ys => simp [hashCompare] at h2
    | cons z zs => simp [hashCompare]
  | cons x xs ih =>
    cases b with
    | nil => simp [hashCompare] at h1
    | cons y ys =>
      cases c with
      | nil => simp [hashCompare] at h2
      | cons z zs =>
        simp only [hashCompare] at h1 h2 ⊢
        by_cases hxy : x < y
        · by_cases hyz : y < z
          · rw [if_pos (by omega : x < z)]
          · by_cases hzy : z < y
            · rw [if_neg hyz, if_pos hzy] at h2; cases h2
            · have : y = z := by omega
              subst this
              rw [if_pos hxy]
        · by_cases hyx : y < x
          · rw [if_neg hxy, if_pos hyx] at h1; cases h1
          · have hxy' : x = y := by omega
            subst hxy'
            by_cases hyz : x < z
            · rw [if_pos hyz]
            · by_cases hzy : z < x
              · rw [if_neg hyz, if_pos hzy] at h2; cases h2
              · have : x = z := by omega
                subst this
                rw [if_neg (Nat.lt_irrefl x), if_neg (Nat.lt_irrefl x)] at h1 h2 ⊢
                exact ih ys zs h1 h2

theorem sortedStrict_pairwise :
    ∀ es : List EntryData, sortedStrict es = true →
      List.Pairwise (fun a b => hashCompare a.hash b.hash = Ordering.lt) es
  | [], _ => .nil
  | [a], _ => by simp
  | a :: b :: rest, h => by
    simp only [sortedStrict, Bool.and_eq_true] at h
    have h1 : hashCompare a.hash b.hash = Ordering.lt := by
      have hb := h.1
      cases hc : hashCompare a.hash b.hash
      · rfl
      · rw [hc] at hb; exact absurd hb (by decide)
      · rw [hc] at hb; exact absurd hb (by decide)
    have ih := sortedStrict_pairwise (b :: rest) h.2
    refine List.Pairwise.cons ?_ ih
    intro x hx
    rcases List.mem_cons.mp hx with hx | hx
    · subst hx; exact h1
    · exact hashCompare_lt_trans _ _ _ h1 (List.rel_of_pairwise_cons ih hx)

theorem sorted_get_lt (es : List EntryData) (hs : sortedStrict es = true)
    (i j : Fin es.length) (hij : i < j) :
    hashCompare (es.get i).hash (es.get j).hash = Ordering.lt :=
  List.pairwise_iff_get.mp (sortedStrict_pairwise es hs) i j hij

theorem sorted_hash_inj (es : List EntryData) (hs : sortedStrict es = true)
    (i j : Fin es.length) (hh : (es.get i).hash = (es.get j).hash) : i = j := by
  rcases Nat.lt_trichotomy i.val j.val with h | h | h
  · have := sorted_get_lt es hs i j h
    rw [hh, hashCompare_self] at this
    cases this
  · exact Fin.ext h
  · have := sorted_get_lt es hs j i h
    rw [hh, hashCompare_self] at this
    cases this

end dmResourceArchive

namespace dmResourceArchive

theorem getD_eq_get (l : List EntryData) (n : Nat) (h : n < l.length) :
    l.getD n default = l.get ⟨n, h⟩ := by
  rw [List.getD_eq_getElem _ _ h, List.get_eq_getElem]

theorem findLoop_sound (es : List EntryData) (key : List Nat) :
    ∀ fuel lo hi, hi ≤ es.length →
      ∀ e, findLoop es key fuel lo hi = some e → e ∈ es ∧ e.hash = key := by
  intro fuel
  induction fuel with
  | zero =>
    intro lo hi _ e h
    simp [findLoop] at h
  | succ f ih =>
    intro lo hi hhi e h
    rw [findLoop] at h
    split at h
    · rename_i hlt
      split at h
      · exact ih lo _ (by omega) e h
      · rename_i heq
        have hmid : (lo + hi) / 2 < es.length := by omega
        injection h with h
        subst h
        rw [getD_eq_get es _ hmid] at heq ⊢
        exact ⟨List.get_mem es _ hmid, ((hashCompare_eq_iff _ _).mp heq).symm⟩
      · exact ih _ hi hhi e h
    · cases h

theorem findLoop_complete (es : List EntryData) (key : List Nat)
    (hs : sortedStrict es = true) :
    ∀ fuel lo hi (i : Fin es.length), hi ≤ es.length → lo ≤ i.val → i.val < hi →
      (es.get i).hash = key → hi - lo ≤ fuel →
      findLoop es key fuel lo hi = some (es.get i) := by
  intro fuel
  induction fuel with
  | zero =>
    intro lo hi i _ h1 h2 _ h3
    omega
  | succ f ih =>
    intro lo hi i hhi hlo hihi hkey hfuel
    have hlt : lo < hi := by omega
    have hmid : (lo + hi) / 2 < es.length := by omega
    rw [findLoop, if_pos hlt]
    cases hcmp : hashCompare key (es.getD ((lo + hi) / 2) default).hash
    · have himid : i.val < (lo + hi) / 2 := by
        rw [getD_eq_get es _ hmid] at hcmp
        by_contra hcon
        rcases Nat.eq_or_lt_of_le (Nat.le_of_not_lt hcon) with hc | hc
        · have : (⟨(lo + hi) / 2, hmid⟩ : Fin es.length) = i := Fin.ext hc
          rw [this, hkey, hashCompare_self] at hcmp
          cases hcmp
        · have hsor := sorted_get_lt es hs ⟨(lo + hi) / 2, hmid⟩ i hc
          rw [hkey] at hsor
          have := hashCompare_lt_trans _ _ _ hcmp hsor
          rw [hashCompare_self] at this
          cases this
      exact ih lo ((lo + hi) / 2) i (by omega) hlo himid hkey (by omega)
    · rw [getD_eq_get es _ hmid] at hcmp ⊢
      have hkeq : key = (es.get ⟨(lo + hi) / 2, hmid⟩).hash := (hashCompare_eq_iff _ _).mp hcmp
      have : (⟨(lo + hi) / 2, hmid⟩ : Fin es.length) = i := by
        apply sorted_hash_inj es hs
        rw [← hkeq, hkey]
      rw [this]
    · have himid : (lo + hi) / 2 < i.val := by
        rw [getD_eq_get es _ hmid] at hcmp
        by_contra hcon
        rcases Nat.eq_or_lt_of_le (Nat.le_of_not_lt hcon) with hc | hc
        · have : i = (⟨(lo + hi) / 2, hmid⟩ : Fin es.length) := Fin.ext hc
          rw [← this, hkey, hashCompare_self] at hcmp
          cases hcmp
        · have hsor := sorted_get_lt es hs i ⟨(lo + hi) / 2, hmid⟩ hc
          rw [hkey] at hsor
          rw [hsor] at hcmp
          cases hcmp
      exact ih ((lo + hi) / 2 + 1) hi i hhi (by omega) hihi hkey (by omega)

theorem findEntry_found (a : ArchiveIndex) (hwf : WellFormedTable a.entries)
    (e : EntryData) (he : e ∈ a.entries) : FindEntry2 a e.hash = some e := by
  rcases List.mem_iff_get.mp he with ⟨i, hi⟩
  have htake : e.hash.take hashLen = e.hash := by
    rw [← hwf.2 e he]
    exact List.take_length e.hash
  rw [FindEntry2, htake, ← hi]
  exact findLoop_complete a.entries (a.entries.get i).hash hwf.1
    (a.entries.length + 1) 0 a.entries.length i (Nat.le_refl _) (Nat.zero_le _)
    i.isLt rfl (by omega)

theorem findEntry_not_found (a : ArchiveIndex) (h : List Nat)
    (hmiss : ∀ e ∈ a.entries, e.hash ≠ h.take hashLen) : FindEntry2 a h = none := by
  rw [FindEntry2]
  cases hfind : findLoop a.entries (h.take hashLen) (a.entries.length + 1) 0
      a.entries.length with
  | none => rfl
  | some e =>
    have := findLoop_sound a.entries (h.take hashLen) _ _ _ (Nat.le_refl _) e hfind
    exact absurd this.2 (hmiss e this.1)

end dmResourceArchive

namespace dmResourceArchive

theorem readU32_u32le (v : Nat) (rest : List Nat) (hv : v < 4294967296) :
    readU32 (u32le v ++ rest) = v := by
  simp only [u32le, List.cons_append, List.nil_append, readU32,
    List.getD_cons_zero, List.getD_cons_succ]
  omega

theorem drop4_u32le (v : Nat) (rest : List Nat) : (u32le v ++ rest).drop 4 = rest := by
  simp [u32le]

theorem drop8_u64le (v : Nat) (rest : List Nat) : (u64le v ++ rest).drop 8 = rest := by
  simp [u64le, u32le]

theorem readU64_u64le (v : Nat) (rest : List Nat) (hv : v < 18446744073709551616) :
    readU64 (u64le v ++ rest) = v := by
  rw [readU64, u64le, List.append_assoc,
    readU32_u32le _ _ (by omega), drop4_u32le,
    readU32_u32le _ _ (by omega)]
  omega

theorem length_serializeEntry (e : EntryData) (hh : e.hash.length = hashLen) :
    (serializeEntry e).length = entrySize := by
  simp [serializeEntry, u64le, u32le, hh, entrySize]

theorem parseEntry_serializeEntry (e : EntryData) (rest : List Nat) (hwf : EntryWF e) :
    parseEntry (serializeEntry e ++ rest) = e := by
  obtain ⟨hh, ho, hc, hd, hf⟩ := hwf
  have hassoc : serializeEntry e ++ rest =
      e.hash ++ (u64le e.data_offset ++ (u32le e.compressed_size ++
        (u32le e.decompressed_size ++ (u32le e.flags ++ rest)))) := by
    simp [serializeEntry, List.append_assoc]
  have hdropH : (serializeEntry e ++ rest).drop hashLen =
      u64le e.data_offset ++ (u32le e.compressed_size ++
        (u32le e.decompressed_size ++ (u32le e.flags ++ rest))) := by
    rw [hassoc, List.drop_left' hh]
  have hdrop8 : (serializeEntry e ++ rest).drop (hashLen + 8) =
      u32le e.compressed_size ++ (u32le e.decompressed_size ++ (u32le e.flags ++ rest)) := by
    rw [← List.drop_drop, hdropH, drop8_u64le]
  have hdrop12 : (serializeEntry e ++ rest).drop (hashLen + 12) =
      u32le e.decompressed_size ++ (u32le e.flags ++ rest) := by
    have h12 : hashLen + 12 = (hashLen + 8) + 4 := by omega
    rw [h12, ← List.drop_drop, hdrop8, drop4_u32le]
  have hdrop16 : (serializeEntry e ++ rest).drop (hashLen + 16) =
      u32le e.flags ++ rest := by
    have h16 : hashLen + 16 = (hashLen + 12) + 4 := by omega
    rw [h16, ← List.drop_drop, hdrop12, drop4_u32le]
  obtain ⟨eh, eo, ec, ed, ef⟩ := e
  simp only [parseEntry, EntryData.mk.injEq]
  refine ⟨?_, ?_, ?_, ?_, ?_⟩
  · rw [hassoc]
    exact List.take_left' hh
  · rw [hdropH]
    exact readU64_u64le _ _ ho
  · rw [hdrop8]
    exact readU32_u32le _ _ hc
  · rw [hdrop12]
    exact readU32_u32le _ _ hd
  · rw [hdrop16]
    exact readU32_u32le _ _ hf

theorem length_serializeEntries (es : List EntryData)
    (hwf : ∀ e ∈ es, e.hash.length = hashLen) :
    (serializeEntries es).length = es.length * entrySize := by
  induction es with
  | nil => simp [serializeEntries]
  | cons e rest ih =>
    simp only [serializeEntries, List.length_append, List.length_cons]
    rw [length_serializeEntry e (hwf e (List.mem_cons_self e rest)),
      ih (fun x hx => hwf x (List.mem_cons_of_mem e hx))]
    ring

theorem parseEntries_serializeEntries (es : List EntryData) (rest : List Nat)
    (hwf : ∀ e ∈ es, EntryWF e) :
    parseEntries (serializeEntries es ++ rest) es.length = es := by
  induction es generalizing rest with
  | nil => simp [parseEntries]
  | cons e tail ih =>
    have hes : serializeEntries (e :: tail) ++ rest =
        serializeEntry e ++ (serializeEntries tail ++ rest) := by
      simp [serializeEntries, List.append_assoc]
    have hlen : (serializeEntry e).length = entrySize :=
      length_serializeEntry e (hwf e (List.mem_cons_self e tail)).1
    simp only [List.length_cons, parseEntries, hes]
    rw [List.take_left' hlen, List.drop_left' hlen]
    rw [← List.append_nil (serializeEntry e)]
    rw [parseEntry_serializeEntry e [] (hwf e (List.mem_cons_self e tail))]
    rw [ih rest (fun x hx => hwf x (List.mem_cons_of_mem e hx))]

end dmResourceArchive

namespace dmResourceArchive

theorem length_takeWhile (p : Nat → Bool) (l : List Nat) :
    (l.takeWhile p).length ≤ l.length := by
  induction l with
  | nil => simp
  | cons c l ih =>
    rw [List.takeWhile_cons]
    by_cases h : p c
    · rw [if_pos h]
      simp only [List.length_cons]
      omega
    · rw [if_neg h]
      simp

theorem take_eq_replicate_of_takeWhile (b : Nat) :
    ∀ (l : List Nat) (k : Nat), k ≤ (l.takeWhile (· == b)).length →
      l.take k = List.replicate k b := by
  intro l
  induction l with
  | nil =>
    intro k hk
    simp only [List.takeWhile_nil, List.length_nil, Nat.le_zero] at hk
    subst hk
    simp
  | cons c l ih =>
    intro k hk
    cases k with
    | zero => simp
    | succ k' =>
      rw [List.takeWhile_cons] at hk
      by_cases hcb : (c == b) = true
      · have hc : c = b := eq_of_beq hcb
        rw [if_pos hcb] at hk
        simp only [List.length_cons] at hk
        rw [List.take_succ_cons, List.replicate_succ, hc,
          ih k' (by omega)]
      · rw [if_neg hcb] at hk
        simp at hk

theorem cons_eq_replicate_append (b : Nat) (rest : List Nat) (k : Nat)
    (hk : k ≤ (rest.takeWhile (· == b)).length) :
    b :: rest = List.replicate (k + 1) b ++ rest.drop k := by
  rw [List.replicate_succ, List.cons_append]
  have h1 : rest.take k = List.replicate k b :=
    take_eq_replicate_of_takeWhile b rest k hk
  rw [← h1, List.take_append_drop]

theorem compressRLEFuel_irrel :
    ∀ (n m : Nat) (l : List Nat), l.length < n → l.length < m →
      compressRLEFuel n l = compressRLEFuel m l := by
  intro n
  induction n with
  | zero =>
    intro m l hn _
    omega
  | succ n ih =>
    intro m l hn hm
    cases m with
    | zero => omega
    | succ m =>
      cases l with
      | nil => rfl
      | cons b rest =>
        rw [compressRLEFuel, compressRLEFuel]
        have hkle : min ((rest.takeWhile (· == b)).length) 254 ≤ rest.length :=
          le_trans (Nat.min_le_left _ _) (length_takeWhile _ rest)
        simp only [List.length_cons] at hn hm
        rw [ih m (rest.drop (min ((rest.takeWhile (· == b)).length) 254))
          (by simp only [List.length_drop]; omega)
          (by simp only [List.length_drop]; omega)]

theorem compressRLE_nil : compressRLE [] = [] := rfl

theorem compressRLE_cons (b : Nat) (rest : List Nat) :
    compressRLE (b :: rest) =
      (min ((rest.takeWhile (· == b)).length) 254 + 1) :: b ::
        compressRLE (rest.drop (min ((rest.takeWhile (· == b)).length) 254)) := by
  rw [compressRLE, List.length_cons, compressRLEFuel, compressRLE]
  have hkle : min ((rest.takeWhile (· == b)).length) 254 ≤ rest.length :=
    le_trans (Nat.min_le_left _ _) (length_takeWhile _ rest)
  rw [compressRLEFuel_irrel (rest.length + 1)
    ((rest.drop (min ((rest.takeWhile (· == b)).length) 254)).length + 1)
    (rest.drop (min ((rest.takeWhile (· == b)).length) 254))
    (by simp only [List.length_drop]; omega)
    (by omega)]

theorem rle_round_aux :
    ∀ (n : Nat) (l : List Nat), l.length ≤ n → ∀ cap, l.length ≤ cap →
      decompressRLE cap (compressRLE l) = some l := by
  intro n
  induction n with
  | zero =>
    intro l hl cap _
    have : l = [] := List.eq_nil_of_length_eq_zero (Nat.le_zero.mp hl)
    subst this
    simp [compressRLE_nil, decompressRLE]
  | succ n ih =>
    intro l hl cap hcap
    cases l with
    | nil => simp [compressRLE_nil, decompressRLE]
    | cons b rest =>
      rw [compressRLE_cons]
      have hkle : min ((rest.takeWhile (· == b)).length) 254 ≤ rest.length :=
        le_trans (Nat.min_le_left _ _) (length_takeWhile _ rest)
      simp only [List.length_cons] at hl hcap
      rw [decompressRLE]
      rw [if_neg (by omega), if_neg (by omega)]
      rw [ih (rest.drop (min ((rest.takeWhile (· == b)).length) 254))
        (by simp only [List.length_drop]; omega)
        (cap - (min ((rest.takeWhile (· == b)).length) 254 + 1))
        (by simp only [List.length_drop]; omega)]
      rw [Option.map_some']
      rw [← cons_eq_replicate_append b rest _ (Nat.min_le_left _ _)]

theorem decompressRLE_compressRLE (l : List Nat) (cap : Nat) (hcap : l.length ≤ cap) :
    decompressRLE cap (compressRLE l) = some l :=
  rle_round_aux l.length l (Nat.le_refl _) cap hcap

end dmResourceArchive

namespace dmResourceArchive

theorem length_buildEntriesAux :
    ∀ (src : List SourceEntry) (off : Nat),
      (buildEntriesAux off src).length = src.length := by
  intro src
  induction src with
  | nil => intro off; rfl
  | cons s rest ih =>
    intro off
    simp only [buildEntriesAux, List.length_cons, ih]

theorem mem_buildEntriesAux :
    ∀ (src : List SourceEntry) (off : Nat) (e : EntryData),
      e ∈ buildEntriesAux off src →
      ∃ s ∈ src, e.hash = s.hash ∧ e.compressed_size = (storedBlob s).length ∧
        e.decompressed_size = s.payload.length ∧ e.flags = storedFlag s := by
  intro src
  induction src with
  | nil =>
    intro off e h
    simp [buildEntriesAux] at h
  | cons s rest ih =>
    intro off e h
    rw [buildEntriesAux] at h
    rcases List.mem_cons.mp h with h | h
    · subst h
      exact ⟨s, List.mem_cons_self s rest, rfl, rfl, rfl, rfl⟩
    · rcases ih _ e h with ⟨s', hs', hrest⟩
      exact ⟨s', List.mem_cons_of_mem s hs', hrest⟩

theorem buildEntriesAux_bounds :
    ∀ (src : List SourceEntry) (off : Nat) (e : EntryData),
      e ∈ buildEntriesAux off src →
      e.data_offset + e.compressed_size ≤ off + (buildData src).length := by
  intro src
  induction src with
  | nil =>
    intro off e h
    simp [buildEntriesAux] at h
  | cons s rest ih =>
    intro off e h
    rw [buildEntriesAux] at h
    simp only [buildData, List.length_append]
    rcases List.mem_cons.mp h with h | h
    · subst h
      simp only []
      omega
    · have := ih (off + (storedBlob s).length) e h
      omega

theorem sortedStrict_buildEntriesAux :
    ∀ (src : List SourceEntry) (off : Nat),
      sortedStrict (buildEntriesAux off src) = srcSorted src
  | [], _ => rfl
  | [_], _ => rfl
  | a :: b :: rest, off => by
    have ih := sortedStrict_buildEntriesAux (b :: rest) (off + (storedBlob a).length)
    simp only [buildEntriesAux] at ih ⊢
    simp only [sortedStrict, srcSorted]
    rw [ih]

theorem buildEntriesAux_getD_fields :
    ∀ (src : List SourceEntry) (off : Nat) (i : Nat), i < src.length →
      ((buildEntriesAux off src).getD i default).hash = (src.getD i ⟨[], [], false⟩).hash ∧
      ((buildEntriesAux off src).getD i default).compressed_size =
        (storedBlob (src.getD i ⟨[], [], false⟩)).length ∧
      ((buildEntriesAux off src).getD i default).decompressed_size =
        (src.getD i ⟨[], [], false⟩).payload.length ∧
      ((buildEntriesAux off src).getD i default).flags =
        storedFlag (src.getD i ⟨[], [], false⟩) := by
  intro src
  induction src with
  | nil =>
    intro off i h
    simp at h
  | cons s rest ih =>
    intro off i hi
    cases i with
    | zero =>
      simp [buildEntriesAux]
    | succ i' =>
      simp only [buildEntriesAux, List.getD_cons_succ]
      exact ih _ i' (by simpa using hi)

theorem buildEntriesAux_getD_mem (src : List SourceEntry) (off : Nat) (i : Nat)
    (hi : i < src.length) :
    (buildEntriesAux off src).getD i default ∈ buildEntriesAux off src := by
  have hlen : i < (buildEntriesAux off src).length := by
    rw [length_buildEntriesAux]; exact hi
  rw [getD_eq_get _ _ hlen]
  exact List.get_mem _ _ hlen

theorem buildData_slice :
    ∀ (src : List SourceEntry) (pre : List Nat) (i : Nat), i < src.length →
      ((pre ++ buildData src).drop
          (((buildEntriesAux pre.length src).getD i default).data_offset)).take
        (((buildEntriesAux pre.length src).getD i default).compressed_size) =
      storedBlob (src.getD i ⟨[], [], false⟩) := by
  intro src
  induction src with
  | nil =>
    intro pre i h
    simp at h
  | cons s rest ih =>
    intro pre i hi
    cases i with
    | zero =>
      simp only [buildEntriesAux, List.getD_cons_zero, buildData]
      rw [List.drop_left, List.take_left]
    | succ i' =>
      simp only [buildEntriesAux, List.getD_cons_succ, buildData, List.getD_cons_succ]
      rw [← List.append_assoc]
      have hpre : pre.length + (storedBlob s).length = (pre ++ storedBlob s).length := by
        simp
      rw [hpre]
      exact ih (pre ++ storedBlob s) i' (by simpa using hi)

end dmResourceArchive

namespace dmResourceArchive

theorem storedBlob_length_le (s : SourceEntry) :
    (storedBlob s).length ≤ s.payload.length := by
  rw [storedBlob]
  split
  · rename_i h
    exact h.2
  · exact Nat.le_refl _

theorem storedFlag_le_one (s : SourceEntry) : storedFlag s ≤ 1 := by
  rw [storedFlag]
  split
  · exact Nat.le_refl _
  · omega

theorem read_buildEntry (src : List SourceEntry) (i : Nat) (hi : i < src.length) :
    Read2 ⟨buildEntriesAux 0 src, buildData src⟩ ((buildEntriesAux 0 src).getD i default) =
      .ok ((src.getD i ⟨[], [], false⟩).payload) := by
  obtain ⟨hhash, hcs, hds, hfl⟩ := buildEntriesAux_getD_fields src 0 i hi
  have hmem : (buildEntriesAux 0 src).getD i default ∈ buildEntriesAux 0 src :=
    buildEntriesAux_getD_mem src 0 i hi
  have hbound := buildEntriesAux_bounds src 0 _ hmem
  have hslice : ((buildData src).drop
        (((buildEntriesAux 0 src).getD i default).data_offset)).take
        (((buildEntriesAux 0 src).getD i default).compressed_size) =
      storedBlob (src.getD i ⟨[], [], false⟩) := by
    have h := buildData_slice src [] i hi
    simpa using h
  simp only [Read2]
  rw [if_neg (by omega)]
  by_cases hc : ((src.getD i ⟨[], [], false⟩).compress = true ∧
      (compressRLE (src.getD i ⟨[], [], false⟩).payload).length ≤
        (src.getD i ⟨[], [], false⟩).payload.length)
  · have hflag : ((buildEntriesAux 0 src).getD i default).flags = 1 := by
      rw [hfl, storedFlag, if_pos hc]
    have hblob : storedBlob (src.getD i ⟨[], [], false⟩) =
        compressRLE (src.getD i ⟨[], [], false⟩).payload := by
      rw [storedBlob, if_pos hc]
    have hcomp : isCompressed ((buildEntriesAux 0 src).getD i default) = true := by
      rw [isCompressed, hflag]; decide
    rw [if_pos hcomp]
    rw [hslice, hblob, hds,
      decompressRLE_compressRLE _ _ (Nat.le_refl _)]
    simp
  · have hflag : ((buildEntriesAux 0 src).getD i default).flags = 0 := by
      rw [hfl, storedFlag, if_neg hc]
    have hblob : storedBlob (src.getD i ⟨[], [], false⟩) =
        (src.getD i ⟨[], [], false⟩).payload := by
      rw [storedBlob, if_neg hc]
    have hcomp : isCompressed ((buildEntriesAux 0 src).getD i default) = false := by
      rw [isCompressed, hflag]; decide
    rw [if_neg (by rw [hcomp]; exact Bool.false_ne_true)]
    rw [if_neg (by rw [hcs, hds, hblob]; omega)]
    rw [hslice, hblob]

theorem buildEntries_wf (src : List SourceEntry) (h : BuildPre src) :
    ∀ e ∈ buildEntriesAux 0 src, EntryWF e := by
  intro e he
  obtain ⟨s, hs, hhash, hcs, hds, hfl⟩ := mem_buildEntriesAux src 0 e he
  obtain ⟨hsort, hn, hdata, hall⟩ := h
  obtain ⟨hhl, hpl, hbl⟩ := hall s hs
  have hbound := buildEntriesAux_bounds src 0 e he
  have hflag := storedFlag_le_one s
  refine ⟨by rw [hhash]; exact hhl, by omega, by omega, by omega, by omega⟩

theorem buildEntries_hashLen (src : List SourceEntry) (h : BuildPre src) :
    ∀ e ∈ buildEntriesAux 0 src, e.hash.length = hashLen := by
  intro e he
  exact (buildEntries_wf src h e he).1

theorem MAGIC_length : MAGIC.length = 4 := rfl

theorem drop4_buildIndex (src : List SourceEntry) :
    (buildIndex src).drop 4 =
      u32le src.length ++ serializeEntries (buildEntriesAux 0 src) := by
  rw [buildIndex]
  exact List.drop_left' (rfl : (MAGIC).length = 4)

theorem declaredCount_buildIndex (src : List SourceEntry)
    (hn : src.length < 4294967296) : declaredCount (buildIndex src) = src.length := by
  rw [declaredCount, drop4_buildIndex]
  exact readU32_u32le _ _ hn

theorem drop8_buildIndex (src : List SourceEntry) :
    (buildIndex src).drop 8 = serializeEntries (buildEntriesAux 0 src) := by
  have h8 : (buildIndex src).drop 8 = ((buildIndex src).drop 4).drop 4 := by
    rw [List.drop_drop]
  rw [h8, drop4_buildIndex, drop4_u32le]

theorem length_buildIndex (src : List SourceEntry) (h : BuildPre src) :
    (buildIndex src).length = headerSize + src.length * entrySize := by
  rw [buildIndex]
  simp only [List.length_append]
  rw [length_serializeEntries _ (buildEntries_hashLen src h), length_buildEntriesAux]
  rfl

theorem declaredEntries_buildIndex (src : List SourceEntry) (h : BuildPre src) :
    declaredEntries (buildIndex src) = buildEntriesAux 0 src := by
  rw [declaredEntries, declaredCount_buildIndex src h.2.1]
  show parseEntries ((buildIndex src).drop 8) src.length = buildEntriesAux 0 src
  rw [drop8_buildIndex]
  rw [← length_buildEntriesAux src 0, ← List.append_nil (serializeEntries _)]
  exact parseEntries_serializeEntries _ [] (buildEntries_wf src h)

theorem wrap_buildIndex (src : List SourceEntry) (h : BuildPre src) :
    WrapArchiveBuffer2 (buildIndex src) (buildData src) =
      .ok ⟨buildEntriesAux 0 src, buildData src⟩ := by
  have hlen := length_buildIndex src h
  have hcount := declaredCount_buildIndex src h.2.1
  have hdecl := declaredEntries_buildIndex src h
  rw [WrapArchiveBuffer2]
  rw [if_neg (by rw [indexTooShort, hlen, hcount]; omega)]
  rw [if_neg (by
    rw [buildIndex, List.append_assoc, List.take_left' MAGIC_length]
    exact fun hne => hne rfl)]
  rw [if_neg (by
    rw [hdecl, sortedStrict_buildEntriesAux, h.1]
    exact fun hne => hne rfl)]
  rw [if_neg (by
    rw [hdecl]
    intro hany
    rcases List.any_eq_true.mp hany with ⟨e, he, hp⟩
    have hb := buildEntriesAux_bounds src 0 e he
    simp only [decide_eq_true_eq] at hp
    omega)]
  rw [hdecl]

end dmResourceArchive

namespace dmResourceArchive

/-- C1: for every index buffer and data buffer passed to wrap
(WrapArchiveBuffer2): if the index buffer is too short for its declared
header/entry count, or if any entry's computed data_offset plus
compressed_size would read past the end of the supplied data buffer, wrap
returns InvalidFormat; and wrap performs no out-of-bounds access — whenever
it yields a handle, every entry of that handle lies within the supplied
data buffer. -/
theorem wrap_bounds_guard (index data : List Nat) :
    (indexTooShort index →
      WrapArchiveBuffer2 index data = .error .RESULT_INVALID_FORMAT) ∧
    ((∃ e ∈ declaredEntries index,
        data.length < e.data_offset + e.compressed_size) →
      WrapArchiveBuffer2 index data = .error .RESULT_INVALID_FORMAT) ∧
    (∀ a, WrapArchiveBuffer2 index data = .ok a →
      a.data = data ∧ ∀ e ∈ a.entries,
        e.data_offset + e.compressed_size ≤ data.length) := by
  refine ⟨?_, ?_, ?_⟩
  · intro h
    rw [WrapArchiveBuffer2, if_pos h]
  · rintro ⟨e, he, hlt⟩
    rw [WrapArchiveBuffer2]
    split_ifs with h1 h2 h3 h4
    any_goals rfl
    exact absurd (List.any_eq_true.mpr ⟨e, he, by simpa using hlt⟩) h4
  · intro a ha
    rw [WrapArchiveBuffer2] at ha
    split_ifs at ha with h1 h2 h3 h4
    injection ha with ha
    subst ha
    refine ⟨rfl, ?_⟩
    intro e he
    by_contra hcon
    exact h4 (List.any_eq_true.mpr ⟨e, he, by simp only [decide_eq_true_eq]; omega⟩)

/-- Witness for C1: the empty index buffer is too short and is rejected;
an index declaring entries past a too-short data buffer is rejected. -/
theorem wrap_bounds_guard_witness :
    WrapArchiveBuffer2 [] [] = .error .RESULT_INVALID_FORMAT ∧
    WrapArchiveBuffer2 (buildIndex cSrc) [] = .error .RESULT_INVALID_FORMAT :=
  ⟨(wrap_bounds_guard [] []).1 (by decide),
   (wrap_bounds_guard (buildIndex cSrc) []).2.1 (by decide)⟩

/-- C2: reading an entry whose data_offset + compressed_size exceeds the
data source's length fails with CorruptArchive; no bytes outside the data
source are touched (the model's read is a pure function of the handle, so
the handle and all other reads are unaffected). -/
theorem read_oob_corrupt (a : ArchiveIndex) (e : EntryData)
    (h : a.data.length < e.data_offset + e.compressed_size) :
    Read2 a e = .error .RESULT_CORRUPT_ARCHIVE := by
  rw [Read2, if_pos h]

/-- Witness for C2: a crafted entry pointing far past the test archive's
data fails with CorruptArchive, while a read of a well-formed entry of the
same handle still succeeds. -/
theorem read_oob_corrupt_witness :
    Read2 testArchive ⟨hashA1, 100000, 50, 50, 0⟩ =
      .error .RESULT_CORRUPT_ARCHIVE ∧
    Read2 testArchive (testArchive.entries.getD 0 default) = .ok payload1 :=
  ⟨read_oob_corrupt testArchive ⟨hashA1, 100000, 50, 50, 0⟩ (by decide), by decide⟩

/-- C5: loading from a path whose index file (or companion data file) does
not exist yields IoError; the error constructor carries no handle, so no
partial ArchiveHandle is returned. -/
theorem load_missing_ioError (fs : FileSystem) (path : String)
    (h : fs path = none ∨ fs (dataPathOf path) = none) :
    LoadArchive2 fs path = .error .RESULT_IO_ERROR := by
  rcases h with h | h
  · simp [LoadArchive2, h]
  · cases hfp : fs path with
    | none => simp [LoadArchive2, hfp]
    | some idx => simp [LoadArchive2, hfp, h]

/-- Witness for C5: loading "missing.idx" from an empty disk returns
IoError. -/
theorem load_missing_ioError_witness :
    LoadArchive2 (fun _ => none) "missing.idx" = .error .RESULT_IO_ERROR :=
  load_missing_ioError (fun _ => none) "missing.idx" (Or.inl rfl)

/-- C6: when both files exist, loading from disk produces exactly the same
result as wrapping the same bytes from memory, hence entryCount, find and
read agree between the two handles. -/
theorem load_eq_wrap (fs : FileSystem) (path : String) (idx dat : List Nat)
    (hidx : fs path = some idx) (hdat : fs (dataPathOf path) = some dat) :
    LoadArchive2 fs path = WrapArchiveBuffer2 idx dat ∧
    (∀ a b, LoadArchive2 fs path = .ok a → WrapArchiveBuffer2 idx dat = .ok b →
      GetEntryCount2 a = GetEntryCount2 b ∧
      (∀ h : List Nat, FindEntry2 a h = FindEntry2 b h) ∧
      (∀ e : EntryData, Read2 a e = Read2 b e)) := by
  have h1 : LoadArchive2 fs path = WrapArchiveBuffer2 idx dat := by
    simp [LoadArchive2, hidx, hdat]
  refine ⟨h1, ?_⟩
  intro a b ha hb
  rw [h1, hb] at ha
  injection ha with ha
  subst ha
  exact ⟨rfl, fun _ => rfl, fun _ => rfl⟩

/-- Witness for C6: loading the five-entry test archive from the modelled
disk equals wrapping its two buffers. -/
theorem load_eq_wrap_witness :
    LoadArchive2 testFs "test.arci" =
      WrapArchiveBuffer2 (buildIndex testSrc) (buildData testSrc) :=
  (load_eq_wrap testFs "test.arci" (buildIndex testSrc) (buildData testSrc)
    (by decide) (by decide)).1

end dmResourceArchive

namespace dmResourceArchive

/-- C3: on a well-formed archive, find (FindEntry2) returns exactly the
matching entry for every hash present, and "not found" (`none`, the
RESULT_NOT_FOUND outcome, not an error) for every hash not present —
including hashes ordered before the first or after the last entry. -/
theorem findEntry_spec (a : ArchiveIndex) (hwf : WellFormedTable a.entries) :
    (∀ e ∈ a.entries, FindEntry2 a e.hash = some e) ∧
    (∀ h : List Nat, (∀ e ∈ a.entries, e.hash ≠ h.take hashLen) →
      FindEntry2 a h = none) :=
  ⟨fun e he => findEntry_found a hwf e he,
   fun h hm => findEntry_not_found a h hm⟩

/-- Witness for C3: on the five-entry test archive, lookup of a present
hash returns its entry; the test's unknown hash (below every entry) and a
hash above every entry both return "not found". -/
theorem findEntry_spec_witness :
    FindEntry2 testArchive (testArchive.entries.getD 2 default).hash =
      some (testArchive.entries.getD 2 default) ∧
    FindEntry2 testArchive hashMiss = none ∧
    FindEntry2 testArchive hashHigh = none := by
  have hwf : WellFormedTable testArchive.entries := ⟨by decide, by decide⟩
  refine ⟨?_, ?_, ?_⟩
  · exact (findEntry_spec testArchive hwf).1 _ (by decide)
  · exact (findEntry_spec testArchive hwf).2 hashMiss (by decide)
  · exact (findEntry_spec testArchive hwf).2 hashHigh (by decide)

/-- C4: for every archive produced from well-formed sources, wrapping
succeeds and read (Read2) reproduces each entry's original payload
byte-for-byte — transparently decompressing when the IS_COMPRESSED flag is
set and copying verbatim when it is unset.  The returned byte list models
the `decompressed_size` bytes written into the caller's buffer. -/
theorem read_roundtrip (src : List SourceEntry) (h : BuildPre src) :
    WrapArchiveBuffer2 (buildIndex src) (buildData src) =
      .ok ⟨buildEntriesAux 0 src, buildData src⟩ ∧
    ∀ i, i < src.length →
      Read2 ⟨buildEntriesAux 0 src, buildData src⟩
          ((buildEntriesAux 0 src).getD i default) =
        .ok ((src.getD i ⟨[], [], false⟩).payload) :=
  ⟨wrap_buildIndex src h, fun i hi => read_buildEntry src i hi⟩

/-- Witness for C4: in the two-entry archive `cSrc`, entry 0 is stored
compressed and entry 1 raw, and read reproduces both payloads exactly. -/
theorem read_roundtrip_witness :
    Read2 ⟨buildEntriesAux 0 cSrc, buildData cSrc⟩
        ((buildEntriesAux 0 cSrc).getD 0 default) = .ok cPayA ∧
    Read2 ⟨buildEntriesAux 0 cSrc, buildData cSrc⟩
        ((buildEntriesAux 0 cSrc).getD 1 default) = .ok [1, 2, 3] ∧
    isCompressed ((buildEntriesAux 0 cSrc).getD 0 default) = true ∧
    isCompressed ((buildEntriesAux 0 cSrc).getD 1 default) = false := by
  have h := read_roundtrip cSrc ⟨by decide, by decide, by decide, by decide⟩
  exact ⟨h.2 0 (by decide), h.2 1 (by decide), by decide, by decide⟩

end dmResourceArchive

namespace dmResourceArchive

theorem srcSorted_pairwise :
    ∀ src : List SourceEntry, srcSorted src = true →
      List.Pairwise (fun a b : SourceEntry =>
        hashCompare a.hash b.hash = Ordering.lt) src
  | [], _ => .nil
  | [a], _ => by simp
  | a :: b :: rest, h => by
    simp only [srcSorted, Bool.and_eq_true] at h
    have h1 : hashCompare a.hash b.hash = Ordering.lt := by
      have hb := h.1
      cases hc : hashCompare a.hash b.hash
      · rfl
      · rw [hc] at hb; exact absurd hb (by decide)
      · rw [hc] at hb; exact absurd hb (by decide)
    have ih := srcSorted_pairwise (b :: rest) h.2
    refine List.Pairwise.cons ?_ ih
    intro x hx
    rcases List.mem_cons.mp hx with hx | hx
    · subst hx; exact h1
    · exact hashCompare_lt_trans _ _ _ h1 (List.rel_of_pairwise_cons ih hx)

theorem srcSorted_hash_nodup (src : List SourceEntry)
    (h : srcSorted src = true) : (src.map SourceEntry.hash).Nodup := by
  rw [List.Nodup, List.pairwise_map]
  refine (srcSorted_pairwise src h).imp ?_
  intro a b hlt heq
  rw [heq, hashCompare_self] at hlt
  cases hlt

/-- C7: every entry of a well-formed archive satisfies `compressed_size ≤
decompressed_size`, and when IS_COMPRESSED is unset the two are equal
(read enforces it); independently, read on any entry with the flag unset
and differing sizes fails with CorruptArchive instead of copying. -/
theorem size_invariant (a : ArchiveIndex) (e : EntryData)
    (hwf : WellFormedArchive a) (he : e ∈ a.entries) :
    (e.compressed_size ≤ e.decompressed_size ∧
      (isCompressed e = false → e.compressed_size = e.decompressed_size)) ∧
    (∀ (a2 : ArchiveIndex) (e2 : EntryData), isCompressed e2 = false →
      e2.compressed_size ≠ e2.decompressed_size →
      Read2 a2 e2 = .error .RESULT_CORRUPT_ARCHIVE) := by
  constructor
  · obtain ⟨hwt, hprop⟩ := hwf
    obtain ⟨hb, hle, p, hp⟩ := hprop e he
    refine ⟨hle, ?_⟩
    intro hcf
    by_contra hne
    rw [Read2, if_neg (by omega),
      if_neg (by rw [hcf]; exact Bool.false_ne_true), if_pos hne] at hp
    cases hp
  · intro a2 e2 hflag hne
    rw [Read2]
    by_cases hb : a2.data.length < e2.data_offset + e2.compressed_size
    · rw [if_pos hb]
    · rw [if_neg hb, if_neg (by rw [hflag]; exact Bool.false_ne_true),
        if_pos hne]

/-- Witness for C7: in the well-formed two-entry archive over `cSrc`, the
compressed entry satisfies the size invariant strictly, and a crafted raw
entry with mismatched sizes is rejected with CorruptArchive. -/
theorem size_invariant_witness :
    ((buildEntriesAux 0 cSrc).getD 0 default).compressed_size ≤
      ((buildEntriesAux 0 cSrc).getD 0 default).decompressed_size ∧
    Read2 ⟨buildEntriesAux 0 cSrc, buildData cSrc⟩ ⟨cHashA, 0, 2, 3, 0⟩ =
      .error .RESULT_CORRUPT_ARCHIVE := by
  have hwf : WellFormedArchive ⟨buildEntriesAux 0 cSrc, buildData cSrc⟩ := by
    refine ⟨⟨by decide, by decide⟩, ?_⟩
    intro e he
    have hlist : buildEntriesAux 0 cSrc =
        [⟨cHashA, 0, 2, 30, 1⟩, ⟨cHashB, 2, 3, 3, 0⟩] := by decide
    rw [hlist] at he
    have he2 : e = (⟨cHashA, 0, 2, 30, 1⟩ : EntryData) ∨
        e = (⟨cHashB, 2, 3, 3, 0⟩ : EntryData) := by simpa using he
    rcases he2 with he2 | he2 <;> subst he2
    · exact ⟨by decide, by decide, cPayA, by decide⟩
    · exact ⟨by decide, by decide, [1, 2, 3], by decide⟩
  have h := size_invariant ⟨buildEntriesAux 0 cSrc, buildData cSrc⟩
    ((buildEntriesAux 0 cSrc).getD 0 default) hwf (by decide)
  exact ⟨h.1.1, h.2 _ _ (by decide) (by decide)⟩

/-- C8: for every archive produced from well-formed sources, entryCount
(GetEntryCount2) equals the number of source entries, whether the handle
came from wrap or from loadFromPath, and the source hashes are pairwise
distinct (so the count is the number of distinct hashes). -/
theorem entryCount_spec (src : List SourceEntry) (h : BuildPre src)
    (fs : FileSystem) (path : String)
    (hidx : fs path = some (buildIndex src))
    (hdat : fs (dataPathOf path) = some (buildData src)) :
    (∀ a, WrapArchiveBuffer2 (buildIndex src) (buildData src) = .ok a →
      GetEntryCount2 a = src.length) ∧
    (∀ a, LoadArchive2 fs path = .ok a → GetEntryCount2 a = src.length) ∧
    (src.map SourceEntry.hash).Nodup := by
  have hwrap : ∀ a, WrapArchiveBuffer2 (buildIndex src) (buildData src) = .ok a →
      GetEntryCount2 a = src.length := by
    intro a ha
    rw [wrap_buildIndex src h] at ha
    injection ha with ha
    subst ha
    rw [GetEntryCount2]
    exact length_buildEntriesAux src 0
  refine ⟨hwrap, ?_, srcSorted_hash_nodup src h.1⟩
  intro a ha
  have hl : LoadArchive2 fs path =
      WrapArchiveBuffer2 (buildIndex src) (buildData src) := by
    simp [LoadArchive2, hidx, hdat]
  rw [hl] at ha
  exact hwrap a ha

/-- Witness for C8: the five-entry test archive reports 5 entries after
wrap and after loading from the modelled disk, and its hashes are
distinct. -/
theorem entryCount_spec_witness :
    GetEntryCount2 testArchive = 5 ∧
    LoadArchive2 testFs "test.arci" = .ok testArchive ∧
    (testSrc.map SourceEntry.hash).Nodup := by
  have h := entryCount_spec testSrc ⟨by decide, by decide, by decide, by decide⟩
    testFs "test.arci" (by decide) (by decide)
  exact ⟨h.1 testArchive (by decide), by decide, h.2.2⟩

end dmResourceArchive

/-- C9: the atlas packer reports failures solely through its result value
and the caller-supplied error callback (modelled as the returned list of
(Result, diagnostic) pairs): an explicitly threaded global error slot is
returned untouched, the outcome is a pure function of the inputs, and
every failed run delivers at least one diagnostic through the callback. -/
theorem atlas_error_reporting (g : dmAtlasc.GlobalErrorState)
    (options : dmAtlasc.Options) (source_images : List dmAtlasc.SourceImage) :
    (dmAtlasc.CreateAtlasWithGlobalState g options source_images).2 = g ∧
    (dmAtlasc.CreateAtlasWithGlobalState g options source_images).1 =
      dmAtlasc.CreateAtlas options source_images ∧
    ((dmAtlasc.CreateAtlas options source_images).1 = none →
      (dmAtlasc.CreateAtlas options source_images).2 ≠ []) := by
  refine ⟨rfl, rfl, ?_⟩
  intro hnone
  rw [dmAtlasc.CreateAtlas] at hnone ⊢
  by_cases h : source_images.isEmpty = true
  · rw [if_pos h]
    simp
  · rw [if_neg h] at hnone
    cases hnone

/-- Witness for C9: a failing run on an empty image list leaves the global
slot untouched and reports through the callback channel. -/
theorem atlas_error_reporting_witness :
    (dmAtlasc.CreateAtlasWithGlobalState ⟨none, none⟩
      ⟨.PA_TILEPACK_AUTO, 0, false, 16, 1, 0⟩ []).2 =
        (⟨none, none⟩ : dmAtlasc.GlobalErrorState) ∧
    (dmAtlasc.CreateAtlas ⟨.PA_TILEPACK_AUTO, 0, false, 16, 1, 0⟩ []).2 ≠ [] := by
  have h := atlas_error_reporting ⟨none, none⟩
    ⟨.PA_TILEPACK_AUTO, 0, false, 16, 1, 0⟩ []
  exact ⟨h.1, h.2.2 (by decide)⟩

/-- C10: the null texture transcoder reports every format as not
transcoded, Transcode always returns false, and none of the output
parameters (`images`, `sizes`, `num_transcoded_mips`) are written — the
output record is returned unchanged. -/
theorem null_transcoder_spec (ct : dmGraphics.CompressionType) (path : String)
    (image : dmGraphics.Image) (format : dmGraphics.TextureFormat)
    (out : dmGraphics.TranscodeOut) :
    dmGraphics.IsFormatTranscoded ct = false ∧
    dmGraphics.Transcode path image format out = (false, out) :=
  ⟨rfl, rfl⟩
